import Mathlib

/-!
# go-zip-utils: a verification development

The package `goziputils` (file `go-zip-utils.go`) is a thin layer over Go's
`archive/zip`, `io`, `os` and `fmt`. Its six exported functions are embedded here one to
one, under their own names. The standard-library values they handle are embedded as
follows.

* `error` is the inductive type `Error`; a Go `error` result is an `Option Error`
  (`none` is `nil`).
* `zip.FileHeader` is the structure `FileHeader`, field for field.
* The parser `zip.NewReader` and the file system call `os.ReadFile` are arguments of the
  functions that call them: every theorem about them holds for every parser and every
  file system.
* A read stream (the `io.ReadCloser` that `(*zip.File).Open` returns) is the finite
  script of the results of its `Read` calls, `ReadStream`; `io.ReadAll` and `io.Copy`
  are transcribed over it. The streams opened and closed are accounted in `Streams`.
* `zip.Writer` is a transition system over the headers it has recorded, `Writer`, after
  `writer.go`: `CreateHeader` closes the file writer that is open, turns a name ending in
  a slash into a directory (method `Store`, served by a `dirWriter` that rejects every
  byte), needs a registered compressor for every other entry, and rejects a name or an
  extra field longer than 65535 bytes. The writer's sink accepts every byte, every
  compressor is undone by the reader's decompressor, and the byte encoding of the archive
  is abstracted: reading a finalized archive back (`reread`) gives, per header recorded,
  the name, the method, the count of the bytes written under it and these bytes. What the
  library does to the other header fields on the way (flags, versions, timestamps, extra
  field, checksum, compressed size) is not tracked.
* `RewriteFileIntoZipWriter` copies the header of the entry and hands the library a
  pointer to the copy, which the library may write through, and whose `Extra` shares its
  backing array with the entry's. It is embedded over a memory, `Heap`, of header cells
  and byte arrays: `Writer.CreateHeaderAt` is `CreateHeader` together with what it writes
  in memory. `CopyFile` and `WriteFile` hand over a header literal that nothing else
  refers to, and are embedded over header values.
-/

namespace goziputils

/-! ## Errors -/

/-- The Go `error` values that the package or the library calls under it can return. -/
inductive Error where
  | EOF               -- io.EOF
  | ErrUnexpectedEOF  -- io.ErrUnexpectedEOF
  | ErrShortWrite     -- io.ErrShortWrite
  | errInvalidWrite   -- io.errInvalidWrite
  | ErrFormat         -- zip.ErrFormat
  | ErrAlgorithm      -- zip.ErrAlgorithm
  | ErrChecksum       -- zip.ErrChecksum
  | errLongName       -- zip.errLongName
  | errLongExtra      -- zip.errLongExtra
  | New (msg : String)                   -- errors.New(msg), and any other error value
  | Errorf (msg : String) (err : Error)  -- fmt.Errorf(msg + ": %w", err)
  deriving DecidableEq, Repr

/-- Go's `errors.Unwrap`: the error wrapped by a `%w` verb, if any. -/
def Error.Unwrap : Error → Option Error
  | .Errorf _ err => some err
  | _ => none

/-! ## `zip.FileHeader`, read streams, `zip.File` -/

/-- Go's `time.Time`, as an instant: seconds since the Unix epoch and nanoseconds within
the second. -/
structure Time where
  unix : Int
  nsec : Nat
  deriving DecidableEq, Repr

/-- The zero value of `time.Time`: January 1, year 1, 00:00:00 UTC. -/
def Time.zero : Time := ⟨-62135596800, 0⟩

/-- Go's `Time.IsZero`. -/
def Time.IsZero (t : Time) : Bool := t = Time.zero

/-- Go's `zip.FileHeader` (archive/zip, struct.go), field for field, over the type `B` of
the field `Extra`: the bytes themselves for a header taken as a value, a slice for a
header that lies in memory. -/
structure FileHeaderOf (B : Type) where
  Name : String
  Comment : String
  NonUTF8 : Bool
  CreatorVersion : Nat
  ReaderVersion : Nat
  Flags : Nat
  Method : Nat
  Modified : Time
  ModifiedTime : Nat
  ModifiedDate : Nat
  CRC32 : Nat
  CompressedSize : Nat
  UncompressedSize : Nat
  CompressedSize64 : Nat
  UncompressedSize64 : Nat
  Extra : B
  ExternalAttrs : Nat
  deriving DecidableEq, Repr

/-- A `zip.FileHeader` as a value: `Extra` is the list of its bytes. -/
abbrev FileHeader := FileHeaderOf (List UInt8)

/-- The zero value of `zip.FileHeader`. -/
def FileHeader.zero : FileHeader :=
  { Name := "", Comment := "", NonUTF8 := false, CreatorVersion := 0, ReaderVersion := 0,
    Flags := 0, Method := 0, Modified := Time.zero, ModifiedTime := 0, ModifiedDate := 0,
    CRC32 := 0, CompressedSize := 0, UncompressedSize := 0, CompressedSize64 := 0,
    UncompressedSize64 := 0, Extra := [], ExternalAttrs := 0 }

/-- Compression method `zip.Store`. -/
def Store : Nat := 0

/-- Compression method `zip.Deflate`. -/
def Deflate : Nat := 8

/-- The results of the successive `Read` calls on a stream: `more c rest` is a call that
returns the bytes `c` and a nil error, `last c err` is the first call that returns a
non-nil error (`io.EOF` at a clean end), together with the bytes `c`. -/
inductive ReadStream where
  | more (chunk : List UInt8) (rest : ReadStream)
  | last (chunk : List UInt8) (err : Error)
  deriving DecidableEq, Repr

/-- All bytes the stream delivers. -/
def ReadStream.bytes : ReadStream → List UInt8
  | .more chunk rest => chunk ++ rest.bytes
  | .last chunk _ => chunk

/-- The error that ends the stream. -/
def ReadStream.err : ReadStream → Error
  | .more _ rest => rest.err
  | .last _ err => err

instance instDecidableEqExcept {ε α : Type} [DecidableEq ε] [DecidableEq α] :
    DecidableEq (Except ε α)
  | .ok a, .ok b =>
    if h : a = b then isTrue (by rw [h]) else isFalse (fun h2 => h (Except.ok.inj h2))
  | .error a, .error b =>
    if h : a = b then isTrue (by rw [h]) else isFalse (fun h2 => h (Except.error.inj h2))
  | .ok _, .error _ => isFalse (fun h => Except.noConfusion h)
  | .error _, .ok _ => isFalse (fun h => Except.noConfusion h)

/-- Go's `zip.File`: the header, the offset of the entry in the archive, what opening the
entry gives (`body`: the error of `Open`, or the stream), and what closing the stream
returns. -/
structure File where
  FileHeader : FileHeader
  headerOffset : Nat
  body : Except Error ReadStream
  closeErr : Option Error
  deriving DecidableEq, Repr

/-- The promoted field `f.Name` of `zip.File`. -/
def File.Name (f : File) : String := f.FileHeader.Name

/-- Go's `zip.Reader`, as far as the package reads it: the entries in directory order. -/
structure Reader where
  File : List File
  Comment : String
  deriving DecidableEq, Repr

/-! ## `type ZipMap map[string]*zip.File` -/

/-- The type `ZipMap`: a Go map, as a list of key/value pairs with pairwise distinct keys. -/
abbrev ZipMap := List (String × File)

/-- The empty map, `make(ZipMap)`. -/
def ZipMap.make : ZipMap := []

/-- The assignment `m[k] = v`. -/
def ZipMap.set (m : ZipMap) (k : String) (v : File) : ZipMap :=
  (k, v) :: m.filter (fun p => p.1 ≠ k)

/-- The lookup `m[k]` in its comma-ok form: the value under `k`, if `k` is a key. -/
def ZipMap.get? (m : ZipMap) (k : String) : Option File :=
  (m.find? (fun p => p.1 = k)).map (fun p => p.2)

/-- The keys of the map. -/
def ZipMap.keys (m : ZipMap) : List String := m.map (fun p => p.1)

/-- The loop `for _, f := range files { zipMap[f.Name] = f }`. -/
def rangeSet (zipMap : ZipMap) (files : List File) : ZipMap :=
  files.foldl (fun m f => m.set f.Name f) zipMap

/-! ## The package: building the index -/

/-- Function `NewZipMapFromBytes`, over the parser `NewReader`
(`zip.NewReader(bytes.NewReader(data), int64(len(data)))`). The first component is the
map (`none` is the nil map), the second the error. -/
def NewZipMapFromBytes (NewReader : List UInt8 → Except Error Reader) (data : List UInt8) :
    Option ZipMap × Option Error :=
  match NewReader data with
  | .error err => (none, some (.Errorf "failed to create zip reader" err))
  | .ok r => (some (rangeSet ZipMap.make r.File), none)

/-- Function `NewZipMapFromFilename`, over the file system call `ReadFile` (`os.ReadFile`) and the
parser `NewReader`. -/
def NewZipMapFromFilename (ReadFile : String → Except Error (List UInt8))
    (NewReader : List UInt8 → Except Error Reader) (filename : String) :
    Option ZipMap × Option Error :=
  match ReadFile filename with
  | .error err => (none, some (.Errorf "failed to read file" err))
  | .ok data =>
    match NewReader data with
    | .error err => (none, some (.Errorf "failed to create zip reader" err))
    | .ok r => (some (rangeSet ZipMap.make r.File), none)

/-! ## Read streams: `Open`, `Close`, `io.ReadAll` -/

/-- Accounting of the read streams of the process: `next` is the identity the next opened
stream gets, `live` lists the streams that are open, `closes` logs the `Close` calls. -/
structure Streams where
  next : Nat
  live : List Nat
  closes : List Nat
  deriving DecidableEq, Repr

/-- The `io.ReadCloser` that `Open` returns: its identity, the results of its `Read` calls
and the result of its `Close`. -/
structure ReadCloser where
  id : Nat
  stream : ReadStream
  closeErr : Option Error
  deriving DecidableEq, Repr

/-- Method `(*zip.File).Open`: fails with the entry's open error, or returns a new live
stream. -/
def File.Open (f : File) (s : Streams) : Except Error ReadCloser × Streams :=
  match f.body with
  | .error err => (.error err, s)
  | .ok stream =>
    (.ok ⟨s.next, stream, f.closeErr⟩, { s with next := s.next + 1, live := s.next :: s.live })

/-- Method `Close` of the read stream. -/
def ReadCloser.Close (rc : ReadCloser) (s : Streams) : Option Error × Streams :=
  (rc.closeErr, { s with live := s.live.erase rc.id, closes := s.closes ++ [rc.id] })

/-- The loop of `io.ReadAll`, with `b` the buffer filled so far: append what each `Read`
returns; at the first non-nil error return the buffer, with `io.EOF` turned into nil. -/
def readAllLoop : ReadStream → List UInt8 → List UInt8 × Option Error
  | .more chunk rest, b => readAllLoop rest (b ++ chunk)
  | .last chunk err, b => (b ++ chunk, if err = Error.EOF then none else some err)

/-- Go's `io.ReadAll`. -/
def ReadAll (r : ReadStream) : List UInt8 × Option Error := readAllLoop r []

/-! ## `zip.Writer` -/

/-- Go's `strings.HasSuffix`. -/
def HasSuffix (s suffix : String) : Bool := suffix.data.isSuffixOf s.data

/-- One element of `Writer.dir` (writer.go, `type header`), as far as it is tracked: the
name and the method of the header as the writer holds it, and the uncompressed bytes
written under it. -/
structure header where
  Name : String
  Method : Nat
  written : List UInt8
  deriving DecidableEq, Repr

/-- Go's `zip.Writer` over a sink that accepts every byte. `dir` lists the headers
recorded, `last` is the index in `dir` of the header whose file writer is open
(`w.last != nil && !w.last.closed`), `closed` is the field of that name, `compressors`
lists the methods registered besides `Store` and `Deflate`, `damaged` tells that a header
was recorded without being written to the sink, and `received` logs the headers passed to
`CreateHeader`, as they were passed. -/
structure Writer where
  dir : List header
  last : Option Nat
  closed : Bool
  compressors : List Nat
  damaged : Bool
  received : List FileHeader
  deriving DecidableEq, Repr

/-- Go's `zip.NewWriter`. -/
def NewWriter : Writer := ⟨[], none, false, [], false, []⟩

/-- The `io.Writer` that `CreateHeader` returns: `dirWriter{}` for a directory, else the
`*fileWriter` of the header at index `i` of `dir`. -/
inductive IoWriter where
  | dirWriter
  | fileWriter (i : Nat)
  deriving DecidableEq, Repr

/-- Method `(*Writer).compressor`: whether a compressor is registered for the method. -/
def Writer.compressor (w : Writer) (method : Nat) : Bool :=
  method = Store || method = Deflate || w.compressors.contains method

/-- The checks of `writeHeader` (writer.go) on the lengths of the name and of the extra
field, in bytes. -/
def writeHeader (name : String) (extra : Nat) : Option Error :=
  if 65535 < name.utf8ByteSize then some .errLongName
  else if 65535 < extra then some .errLongExtra
  else none

/-- Method `(*Writer).CreateHeader` (writer.go), in the order of the library.
`prepare` closes the file writer that is open (its check for a header passed twice in a
row compares pointers, and the package passes a new header in every call). For a name
with the suffix `/` the library sets `fh.Method = Store` ("to ensure data length is truly
zero") and serves the entry by `dirWriter{}`; for any other name it looks up the
compressor of `fh.Method` and returns `ErrAlgorithm` when there is none. It then appends
the header to `w.dir` and calls `writeHeader`, the extra field having grown by the 9 bytes
of the extended timestamp when `fh.Modified` is not the zero time; only after that does it
set `w.last`. -/
def Writer.CreateHeader (w : Writer) (fh : FileHeader) : Except Error IoWriter × Writer :=
  let w := { w with received := w.received ++ [fh], last := none }
  let isDir := HasSuffix fh.Name "/"
  if !isDir && !w.compressor fh.Method then (.error .ErrAlgorithm, w)
  else
    let h : header := ⟨fh.Name, if isDir then Store else fh.Method, []⟩
    let i := w.dir.length
    let w := { w with dir := w.dir ++ [h] }
    match writeHeader fh.Name (fh.Extra.length + if fh.Modified.IsZero then 0 else 9) with
    | some err => (.error err, { w with damaged := true })
    | none => if isDir then (.ok .dirWriter, w) else (.ok (.fileWriter i), { w with last := some i })

/-- The bytes `p` appended under the header at index `i`. -/
def writeAt : List header → Nat → List UInt8 → List header
  | [], _, _ => []
  | h :: hs, 0, p => { h with written := h.written ++ p } :: hs
  | h :: hs, i + 1, p => h :: writeAt hs i p

/-- Method `Write` of the `io.Writer` that `CreateHeader` returned: a `dirWriter` accepts
only the empty write (`zip: write to directory`); a file writer accepts all of `p` while
it is open (`zip: write to closed file` afterwards). The result is the count and the
error. -/
def Writer.Write (w : Writer) (ow : IoWriter) (p : List UInt8) :
    (Nat × Option Error) × Writer :=
  match ow with
  | .dirWriter =>
    if p.length = 0 then ((0, none), w) else ((0, some (.New "zip: write to directory")), w)
  | .fileWriter i =>
    if w.last = some i then ((p.length, none), { w with dir := writeAt w.dir i p })
    else ((0, some (.New "zip: write to closed file")), w)

/-- One round of the loop of `io.Copy` after `Read` returned `nr > 0` bytes: `Write` them
and check the count. The result is the number of bytes to add to `written` and the error
that ends the loop, if any. -/
def copyWrite (w : Writer) (dst : IoWriter) (chunk : List UInt8) :
    (Nat × Option Error) × Writer :=
  if 0 < chunk.length then
    match w.Write dst chunk with
    | ((nw, ew), w1) =>
      if chunk.length < nw then ((0, some (ew.getD .errInvalidWrite)), w1)
      else
        match ew with
        | some e => ((nw, some e), w1)
        | none => if chunk.length ≠ nw then ((nw, some .ErrShortWrite), w1) else ((nw, none), w1)
  else ((0, none), w)

/-- The loop of `io.Copy` (io.go, `copyBuffer`; neither end is a `WriterTo` or a
`ReaderFrom`): every `Read` result with bytes is written to `dst`; the loop ends at the
first write error, short write or read error, `io.EOF` being a clean end. -/
def copyBuffer (dst : IoWriter) : ReadStream → Writer → Nat → (Nat × Option Error) × Writer
  | .more chunk rest, w, written =>
    match copyWrite w dst chunk with
    | ((nw, some e), w1) => ((written + nw, some e), w1)
    | ((nw, none), w1) => copyBuffer dst rest w1 (written + nw)
  | .last chunk er, w, written =>
    match copyWrite w dst chunk with
    | ((nw, some e), w1) => ((written + nw, some e), w1)
    | ((nw, none), w1) => ((written + nw, if er = Error.EOF then none else some er), w1)

/-- Go's `io.Copy`. -/
def Copy (w : Writer) (dst : IoWriter) (src : ReadStream) : (Nat × Option Error) × Writer :=
  copyBuffer dst src w 0

/-- Method `(*Writer).Close`: closes the open file writer, fails on a writer that is
already closed, else marks the writer closed (the directory is written to the sink). -/
def Writer.Close (w : Writer) : Option Error × Writer :=
  let w := { w with last := none }
  if w.closed then (some (.New "zip: writer closed twice"), w)
  else (none, { w with closed := true })

/-- An entry as a reader presents it after the archive was finalized: the name, the
method and the uncompressed size of its header, and the bytes its stream delivers. -/
structure Stored where
  Name : String
  Method : Nat
  UncompressedSize64 : Nat
  content : List UInt8
  deriving DecidableEq, Repr

/-- Reading back the sink of a writer, in directory order: defined once the writer is
closed and every recorded header reached the sink. The file writer records the count of
the bytes written as the uncompressed size when it is closed. -/
def reread (w : Writer) : Option (List Stored) :=
  if w.closed && !w.damaged then
    some (w.dir.map (fun h => ⟨h.Name, h.Method, h.written.length, h.written⟩))
  else none

/-- Finalizing the writer and reading the archive back. -/
def finalize (w : Writer) : Option (List Stored) := reread w.Close.2

/-! ## Memory: header cells and byte slices -/

/-- A Go slice of bytes: the backing array it is a window on, the offset of the window in
the array, its length and its capacity. -/
structure Slice where
  array : Nat
  off : Nat
  len : Nat
  cap : Nat
  deriving DecidableEq, Repr

/-- The nil slice. -/
def Slice.nil : Slice := ⟨0, 0, 0, 0⟩

/-- The memory that the package and the library share: the backing arrays of the byte
slices and the `zip.FileHeader` values, each at its address (its index in the list). -/
structure Heap where
  arrays : List (List UInt8)
  headers : List (FileHeaderOf Slice)
  deriving DecidableEq, Repr

/-- The header `h` with another `Extra`. -/
def FileHeaderOf.withExtra {A B : Type} (h : FileHeaderOf A) (extra : B) : FileHeaderOf B :=
  { Name := h.Name, Comment := h.Comment, NonUTF8 := h.NonUTF8,
    CreatorVersion := h.CreatorVersion, ReaderVersion := h.ReaderVersion, Flags := h.Flags,
    Method := h.Method, Modified := h.Modified, ModifiedTime := h.ModifiedTime,
    ModifiedDate := h.ModifiedDate, CRC32 := h.CRC32, CompressedSize := h.CompressedSize,
    UncompressedSize := h.UncompressedSize, CompressedSize64 := h.CompressedSize64,
    UncompressedSize64 := h.UncompressedSize64, Extra := extra,
    ExternalAttrs := h.ExternalAttrs }

/-- The bytes that the slice `s` shows. -/
def Heap.view (m : Heap) (s : Slice) : List UInt8 :=
  ((m.arrays.getD s.array []).drop s.off).take s.len

/-- The header cell at the address `p`. -/
def Heap.cell (m : Heap) (p : Nat) : FileHeaderOf Slice :=
  m.headers.getD p (FileHeader.zero.withExtra Slice.nil)

/-- The header at the address `p` as a value: its fields, and the bytes its `Extra`
shows. -/
def Heap.load (m : Heap) (p : Nat) : FileHeader :=
  (m.cell p).withExtra (m.view (m.cell p).Extra)

/-- The assignment `*p = c`. -/
def Heap.store (m : Heap) (p : Nat) (c : FileHeaderOf Slice) : Heap :=
  { m with headers := m.headers.set p c }

/-- An assignment to a field of `*p`: the cell at `p` becomes `g` of what it holds. -/
def Heap.modify (m : Heap) (p : Nat) (g : FileHeaderOf Slice → FileHeaderOf Slice) : Heap :=
  m.store p (g (m.cell p))

/-- A new header cell holding `c`: its address, and the memory with it. -/
def Heap.alloc (m : Heap) (c : FileHeaderOf Slice) : Nat × Heap :=
  (m.headers.length, { m with headers := m.headers ++ [c] })

/-- The array `l` with the bytes `xs` written from position `pos` on. -/
def overwrite : List UInt8 → Nat → List UInt8 → List UInt8
  | [], _, _ => []
  | a :: l, _, [] => a :: l
  | _ :: l, 0, x :: xs => x :: overwrite l 0 xs
  | a :: l, pos + 1, x :: xs => a :: overwrite l pos (x :: xs)

/-- Go's `append(s, xs...)`: within the capacity of `s` the bytes are written into the
backing array of `s`, behind its window; beyond it a new array is made that holds the
bytes of `s` and `xs` (the spare capacity Go gives a grown slice is left out). -/
def Heap.append (m : Heap) (s : Slice) (xs : List UInt8) : Slice × Heap :=
  if s.len + xs.length ≤ s.cap then
    ({ s with len := s.len + xs.length },
      { m with arrays :=
          m.arrays.set s.array (overwrite (m.arrays.getD s.array []) (s.off + s.len) xs) })
  else
    (⟨m.arrays.length, 0, s.len + xs.length, s.len + xs.length⟩,
      { m with arrays := m.arrays ++ [m.view s ++ xs] })

/-- The extra field that `CreateHeader` makes of `Modified` (writer.go): the tag `0x5455`
of the extended timestamp, the size 5, the flag 1, and `uint32(fh.Modified.Unix())`, all
little-endian. -/
def extendedTimestamp (t : Time) : List UInt8 :=
  let mt := (t.unix % 2 ^ 32).toNat
  [0x55, 0x54, 5, 0, 1, UInt8.ofNat (mt % 256), UInt8.ofNat (mt / 2 ^ 8 % 256),
    UInt8.ofNat (mt / 2 ^ 16 % 256), UInt8.ofNat (mt / 2 ^ 24 % 256)]

/-- Method `(*Writer).CreateHeader` on the header at the address `fh`: "Writer takes
ownership of fh and may mutate its fields". The writer moves as `Writer.CreateHeader`
says for the header as it is handed over. In memory the library, when `fh.Modified` is
not the zero time, does `fh.Extra = append(fh.Extra, mbuf[:]...)` with the extended
timestamp, and assigns fields of `*fh` (flags, versions, the MS-DOS date and time;
method and sizes of a directory): `upd` is that assignment, and the theorems hold for
every `upd`. The library does so before it looks for the compressor, so on every path. -/
def Writer.CreateHeaderAt (upd : FileHeaderOf Slice → FileHeaderOf Slice) (w : Writer)
    (fh : Nat) (m : Heap) : Except Error IoWriter × Writer × Heap :=
  let r := w.CreateHeader (m.load fh)
  let c := m.cell fh
  let a : Slice × Heap :=
    if c.Modified.IsZero then (c.Extra, m) else m.append c.Extra (extendedTimestamp c.Modified)
  (r.1, r.2, a.2.store fh (upd { c with Extra := a.1 }))

/-- The memory that holds the one header `h`, at the address 0, its `Extra` in an array
of its own. -/
def Heap.of (h : FileHeader) : Heap :=
  ⟨[h.Extra], [h.withExtra ⟨0, 0, h.Extra.length, h.Extra.length⟩]⟩

/-! ## The package: entry operations -/

/-- Function `CopyFile`. The result is the error, the writer and the streams after the
call; the deferred `Close` runs on every path after a successful `Open`. -/
def CopyFile (zipWriter : Writer) (f : File) (s : Streams) : Option Error × Writer × Streams :=
  match f.Open s with
  | (.error err, s1) => (some err, zipWriter, s1)
  | (.ok fileInZip, s1) =>
    let r : Option Error × Writer :=
      match zipWriter.CreateHeader
          { FileHeader.zero with Name := f.Name, Method := f.FileHeader.Method } with
      | (.error err, w1) => (some err, w1)
      | (.ok newFile, w1) =>
        match Copy w1 newFile fileInZip.stream with
        | ((_, some err), w2) => (some err, w2)
        | ((_, none), w2) => (none, w2)
    (r.1, r.2, (fileInZip.Close s1).2)

/-- Function `ReadZipFileContent`. The result is the bytes, the error, and the streams
after the call; the deferred `Close` runs after `io.ReadAll` returned. -/
def ReadZipFileContent (f : File) (s : Streams) : (List UInt8 × Option Error) × Streams :=
  match f.Open s with
  | (.error err, s1) => (([], some err), s1)
  | (.ok fileInZip, s1) => (ReadAll fileInZip.stream, (fileInZip.Close s1).2)

/-- Function `RewriteFileIntoZipWriter`, over the memory `m`: `f` is the address of the
header of the entry (`f.FileHeader`), and `upd` is the library's update of a header it
was handed. `newHeader := f.FileHeader` copies the header into a new cell, the slice
`Extra` with it; `uint64(len(content))` is the length modulo `2^64`; `&newHeader` is
handed to `CreateHeader`. The result is the error, the writer and the memory after the
call. -/
def RewriteFileIntoZipWriter (upd : FileHeaderOf Slice → FileHeaderOf Slice)
    (zipWriter : Writer) (f : Nat) (content : List UInt8) (m : Heap) :
    Option Error × Writer × Heap :=
  let a := m.alloc (m.cell f)
  let newHeader := a.1
  let m := a.2.modify newHeader
    (fun h => { h with UncompressedSize64 := content.length % 2 ^ 64 })
  let m := m.modify newHeader (fun h => { h with CompressedSize64 := 0 })
  match zipWriter.CreateHeaderAt upd newHeader m with
  | (.error err, w1, m1) => (some err, w1, m1)
  | (.ok newFile, w1, m1) =>
    match w1.Write newFile content with
    | ((_, some err), w2) => (some err, w2, m1)
    | ((_, none), w2) => (none, w2, m1)

/-- Function `WriteFile`. -/
def WriteFile (zipWriter : Writer) (filename : String) (content : List UInt8) :
    Option Error × Writer :=
  match zipWriter.CreateHeader
      { FileHeader.zero with
        Name := filename, Method := Store, UncompressedSize64 := content.length % 2 ^ 64 } with
  | (.error err, w1) => (some err, w1)
  | (.ok newFile, w1) =>
    match w1.Write newFile content with
    | ((_, some err), w2) => (some err, w2)
    | ((_, none), w2) => (none, w2)

/-! ## Sample values -/

/-- No stream was opened yet. -/
def noStreams : Streams := ⟨0, [], []⟩

/-- The bytes of `hi`. -/
def hi : List UInt8 := [104, 105]

/-- A directory entry as the Java `jar` tool writes it: the name ends in a slash, the
method is `Deflate`, the compressed size is 2 and the uncompressed size is 0; its stream
is at its end at once. -/
def jarDirectory : File :=
  { FileHeader :=
      { FileHeader.zero with
        Name := "META-INF/", Method := Deflate, CompressedSize := 2, CompressedSize64 := 2,
        Modified := ⟨1700000000, 0⟩, ModifiedTime := 45482, ModifiedDate := 22382 },
    headerOffset := 0, body := .ok (.last [] .EOF), closeErr := none }

/-- A deflated entry named `a.txt` whose stream delivers `hi` in two reads. -/
def aTxt : File :=
  { FileHeader :=
      { FileHeader.zero with
        Name := "a.txt", Method := Deflate, CRC32 := 3633523372, CompressedSize := 4,
        CompressedSize64 := 4, UncompressedSize := 2, UncompressedSize64 := 2,
        Modified := ⟨1700000000, 0⟩, ModifiedTime := 45482, ModifiedDate := 22382 },
    headerOffset := 39, body := .ok (.more [104] (.more [105] (.last [] .EOF))),
    closeErr := none }

/-- A later entry of the same name `a.txt`, stored, with content `hi`. -/
def aTxtAgain : File :=
  { FileHeader :=
      { FileHeader.zero with
        Name := "a.txt", Method := Store, CRC32 := 3633523372, CompressedSize := 2,
        CompressedSize64 := 2, UncompressedSize := 2, UncompressedSize64 := 2 },
    headerOffset := 120, body := .ok (.last hi .EOF), closeErr := none }

/-- An entry whose payload is cut short: one byte arrives, then the stream fails. -/
def truncated : File :=
  { FileHeader :=
      { FileHeader.zero with Name := "b.bin", Method := Store, UncompressedSize64 := 2 },
    headerOffset := 80, body := .ok (.more [104] (.last [] .ErrUnexpectedEOF)),
    closeErr := none }

/-- A parser that accepts exactly the buffer `PK` and rejects every other one. -/
def sampleReader (data : List UInt8) : Except Error Reader :=
  if data = [80, 75] then .ok ⟨[aTxt, truncated, aTxtAgain], ""⟩ else .error .ErrFormat

/-- A file system with one file, `x.zip`, whose content is the buffer `PK`. -/
def sampleFS (filename : String) : Except Error (List UInt8) :=
  if filename = "x.zip" then .ok [80, 75] else .error (.New "no such file or directory")

theorem ZipMap.get?_set (m : ZipMap) (k : String) (v : File) (name : String) :
    (m.set k v).get? name = if name = k then some v else m.get? name := by
  unfold ZipMap.set ZipMap.get?
  by_cases h : name = k
  · subst h; simp
  · have h2 : ¬ k = name := fun e => h e.symm
    simp only [List.find?_cons, h2, decide_False, if_neg h, List.find?_filter]
    congr 2
    funext p
    by_cases hp : p.1 = name
    · have hk : p.1 ≠ k := by rw [hp]; exact h
      simp [hp, hk]
      exact h
    · simp [hp]

theorem ZipMap.mem_keys_iff (m : ZipMap) (name : String) :
    name ∈ m.keys ↔ ∃ f, m.get? name = some f := by
  unfold ZipMap.keys ZipMap.get?
  constructor
  · intro h
    obtain ⟨p, hp, rfl⟩ := List.mem_map.mp h
    cases hf : m.find? (fun q => decide (q.1 = p.1)) with
    | none =>
      rw [List.find?_eq_none] at hf
      exact absurd (by simp) (hf p hp)
    | some q => exact ⟨q.2, rfl⟩
  · rintro ⟨f, hf⟩
    cases hq : m.find? (fun q => decide (q.1 = name)) with
    | none => rw [hq] at hf; simp at hf
    | some q =>
      have h1 := List.find?_some hq
      have h2 := List.mem_of_find?_eq_some hq
      simp at h1
      exact List.mem_map.mpr ⟨q, h2, h1⟩

theorem ZipMap.keys_set_nodup (m : ZipMap) (k : String) (v : File) (h : m.keys.Nodup) :
    (m.set k v).keys.Nodup := by
  unfold ZipMap.set ZipMap.keys at *
  rw [List.map_cons, List.nodup_cons]
  constructor
  · intro hk
    obtain ⟨p, hp, hpk⟩ := List.mem_map.mp hk
    have := (List.mem_filter.mp hp).2
    simp at this
    exact this hpk
  · exact (List.Nodup.sublist (List.Sublist.map _ (List.filter_sublist _)) h)

theorem rangeSet_concat (m : ZipMap) (files : List File) (f : File) :
    rangeSet m (files ++ [f]) = (rangeSet m files).set f.Name f := by
  simp [rangeSet, List.foldl_append]

theorem rangeSet_keys_nodup (files : List File) : (rangeSet ZipMap.make files).keys.Nodup := by
  induction files using List.reverseRecOn with
  | nil => simp [rangeSet, ZipMap.make, ZipMap.keys]
  | append_singleton fs f ih => rw [rangeSet_concat]; exact ZipMap.keys_set_nodup _ _ _ ih

/-- The value under a name is the entry of that name after which no entry of that name
follows. -/
theorem rangeSet_get? (files : List File) (name : String) (f : File) :
    (rangeSet ZipMap.make files).get? name = some f ↔
      ∃ pre post, files = pre ++ f :: post ∧ f.Name = name ∧ ∀ g ∈ post, g.Name ≠ name := by
  induction files using List.reverseRecOn with
  | nil => simp [rangeSet, ZipMap.make, ZipMap.get?]
  | append_singleton fs x ih =>
    rw [rangeSet_concat, ZipMap.get?_set]
    by_cases hx : name = x.Name
    · rw [if_pos hx]
      constructor
      · intro h
        cases h
        exact ⟨fs, [], rfl, hx.symm, by simp⟩
      · rintro ⟨pre, post, hdec, -, hpost⟩
        rcases List.eq_nil_or_concat post with rfl | ⟨post2, y, rfl⟩
        · have := List.append_inj_right' hdec rfl
          simp at this
          rw [this]
        · exfalso
          rw [List.concat_eq_append] at hdec hpost
          rw [← List.cons_append, ← List.append_assoc] at hdec
          have h2 := List.append_inj_right' hdec rfl
          simp at h2
          subst h2
          exact hpost x (by simp) hx.symm
    · rw [if_neg hx, ih]
      constructor
      · rintro ⟨pre, post, rfl, hn, hpost⟩
        refine ⟨pre, post ++ [x], by simp, hn, ?_⟩
        intro g hg
        rcases List.mem_append.mp hg with h | h
        · exact hpost g h
        · simp at h; subst h; exact fun e => hx e.symm
      · rintro ⟨pre, post, hdec, hn, hpost⟩
        rcases List.eq_nil_or_concat post with rfl | ⟨post2, y, rfl⟩
        · have := List.append_inj_right' hdec rfl
          simp at this
          subst this
          exact absurd hn.symm hx
        · rw [List.concat_eq_append] at hdec hpost
          rw [← List.cons_append, ← List.append_assoc] at hdec
          have h1 := List.append_inj_left' hdec rfl
          refine ⟨pre, post2, h1, hn, ?_⟩
          intro g hg
          exact hpost g (by simp [hg])

theorem ZipMap.mem_keys_set (m : ZipMap) (k : String) (v : File) (name : String) :
    name ∈ (m.set k v).keys ↔ name = k ∨ name ∈ m.keys := by
  rw [ZipMap.mem_keys_iff, ZipMap.mem_keys_iff, ZipMap.get?_set]
  by_cases h : name = k
  · simp [h]
  · simp [h]

theorem rangeSet_mem_keys (files : List File) (name : String) :
    name ∈ (rangeSet ZipMap.make files).keys ↔ ∃ f ∈ files, f.Name = name := by
  induction files using List.reverseRecOn with
  | nil => simp [rangeSet, ZipMap.make, ZipMap.keys]
  | append_singleton fs x ih =>
    rw [rangeSet_concat, ZipMap.mem_keys_set, ih]
    constructor
    · rintro (h | ⟨f, hf, hn⟩)
      · exact ⟨x, by simp, h.symm⟩
      · exact ⟨f, by simp [hf], hn⟩
    · rintro ⟨f, hf, hn⟩
      rcases List.mem_append.mp hf with h | h
      · exact Or.inr ⟨f, h, hn⟩
      · simp at h; subst h; exact Or.inl hn.symm

/-! ## Lemmas on read streams -/

theorem readAllLoop_eq (r : ReadStream) (b : List UInt8) :
    readAllLoop r b = (b ++ r.bytes, if r.err = Error.EOF then none else some r.err) := by
  induction r generalizing b with
  | more chunk rest ih => simp [readAllLoop, ReadStream.bytes, ReadStream.err, ih]
  | last chunk err => simp [readAllLoop, ReadStream.bytes, ReadStream.err]

theorem ReadAll_eq (r : ReadStream) :
    ReadAll r = (r.bytes, if r.err = Error.EOF then none else some r.err) := by
  simp [ReadAll, readAllLoop_eq]

/-! ## Lemmas on the writer -/

theorem writeAt_nil (dir : List header) (i : Nat) : writeAt dir i [] = dir := by
  induction dir generalizing i with
  | nil => rfl
  | cons h hs ih => cases i <;> simp [writeAt, ih]

theorem writeAt_writeAt (dir : List header) (i : Nat) (p q : List UInt8) :
    writeAt (writeAt dir i p) i q = writeAt dir i (p ++ q) := by
  induction dir generalizing i with
  | nil => rfl
  | cons h hs ih => cases i <;> simp [writeAt, ih]

theorem writeAt_length_append (dir : List header) (h : header) (p : List UInt8) :
    writeAt (dir ++ [h]) dir.length p = dir ++ [{ h with written := h.written ++ p }] := by
  induction dir with
  | nil => rfl
  | cons x xs ih => simp [writeAt, ih]

theorem copyWrite_fileWriter (w : Writer) (i : Nat) (chunk : List UInt8)
    (h : w.last = some i) :
    copyWrite w (.fileWriter i) chunk =
      ((chunk.length, none), { w with dir := writeAt w.dir i chunk }) := by
  unfold copyWrite
  by_cases hc : 0 < chunk.length
  · simp [hc, Writer.Write, h]
  · have : chunk = [] := List.length_eq_zero.mp (by omega)
    subst this
    simp [writeAt_nil]

theorem copyWrite_dirWriter (w : Writer) (chunk : List UInt8) :
    copyWrite w .dirWriter chunk =
      if chunk = [] then ((0, none), w)
      else ((0, some (.New "zip: write to directory")), w) := by
  unfold copyWrite
  by_cases hc : chunk = []
  · subst hc; simp
  · have h0 : 0 < chunk.length := List.length_pos.mpr hc
    have h1 : chunk.length ≠ 0 := by omega
    simp [hc, h0, h1, Writer.Write]

theorem copyBuffer_fileWriter (i : Nat) (src : ReadStream) (w : Writer) (n : Nat)
    (h : w.last = some i) :
    copyBuffer (.fileWriter i) src w n =
      ((n + src.bytes.length, if src.err = Error.EOF then none else some src.err),
        { w with dir := writeAt w.dir i src.bytes }) := by
  induction src generalizing w n with
  | more chunk rest ih =>
    rw [copyBuffer, copyWrite_fileWriter w i chunk h]
    simp only
    rw [ih { w with dir := writeAt w.dir i chunk } _ h]
    simp [ReadStream.bytes, ReadStream.err, writeAt_writeAt, Nat.add_assoc]
  | last chunk er =>
    rw [copyBuffer, copyWrite_fileWriter w i chunk h]
    simp [ReadStream.bytes, ReadStream.err]

theorem copyBuffer_dirWriter (src : ReadStream) (w : Writer) (n : Nat)
    (h : (copyBuffer .dirWriter src w n).1.2 = none) :
    src.err = Error.EOF ∧ src.bytes = [] ∧ (copyBuffer .dirWriter src w n).2 = w := by
  induction src generalizing n with
  | more chunk rest ih =>
    rw [copyBuffer, copyWrite_dirWriter] at h ⊢
    by_cases hc : chunk = []
    · subst hc
      simp only [if_true] at h ⊢
      simpa [ReadStream.bytes, ReadStream.err] using ih _ h
    · simp [hc] at h
  | last chunk er =>
    rw [copyBuffer, copyWrite_dirWriter] at h ⊢
    by_cases hc : chunk = []
    · subst hc
      simp only [if_true] at h ⊢
      by_cases he : er = Error.EOF
      · simp [ReadStream.bytes, ReadStream.err, he]
      · simp [he] at h
    · simp [hc] at h

/-- What a successful `CreateHeader` returns and leaves. -/
theorem CreateHeader_ok (w : Writer) (fh : FileHeader) (ow : IoWriter) (w1 : Writer)
    (h : w.CreateHeader fh = (.ok ow, w1)) :
    fh.Name.utf8ByteSize ≤ 65535 ∧
      ((HasSuffix fh.Name "/" = true ∧ ow = .dirWriter ∧
          w1 = { w with dir := w.dir ++ [⟨fh.Name, Store, []⟩], last := none,
                        received := w.received ++ [fh] }) ∨
        (HasSuffix fh.Name "/" = false ∧ ow = .fileWriter w.dir.length ∧
          w1 = { w with dir := w.dir ++ [⟨fh.Name, fh.Method, []⟩],
                        last := some w.dir.length, received := w.received ++ [fh] })) := by
  unfold Writer.CreateHeader at h
  simp only at h
  split at h
  · simp at h
  · cases hw : writeHeader fh.Name (fh.Extra.length + if fh.Modified.IsZero then 0 else 9) with
    | some err => rw [hw] at h; simp at h
    | none =>
      rw [hw] at h
      simp only at h
      have hlen : fh.Name.utf8ByteSize ≤ 65535 := by
        unfold writeHeader at hw
        by_cases hl : 65535 < fh.Name.utf8ByteSize
        · simp [hl] at hw
        · omega
      refine ⟨hlen, ?_⟩
      by_cases hd : HasSuffix fh.Name "/" = true
      · left
        simp only [hd, if_true, Prod.mk.injEq, Except.ok.injEq] at h
        exact ⟨hd, h.1.symm, h.2.symm⟩
      · right
        simp only [Bool.not_eq_true] at hd
        simp only [hd, Bool.false_eq_true, if_false, Prod.mk.injEq, Except.ok.injEq] at h
        exact ⟨hd, h.1.symm, h.2.symm⟩

/-- C1. For every buffer that the reader accepts, with entries `r.File` in directory
order, `NewZipMapFromBytes` returns a map and a nil error; the keys of the map are
pairwise distinct and are exactly the names of the entries; the value under a name is the
entry of that name after which no entry of that name follows. -/
theorem NewZipMapFromBytes_last_write_wins (NewReader : List UInt8 → Except Error Reader)
    (data : List UInt8) (r : Reader) (h : NewReader data = .ok r) :
    ∃ m : ZipMap, NewZipMapFromBytes NewReader data = (some m, none) ∧
      m.keys.Nodup ∧
      (∀ name, name ∈ m.keys ↔ ∃ f ∈ r.File, f.Name = name) ∧
      (∀ name f, m.get? name = some f ↔
        ∃ pre post, r.File = pre ++ f :: post ∧ f.Name = name ∧ ∀ g ∈ post, g.Name ≠ name) := by
  refine ⟨rangeSet ZipMap.make r.File, ?_, rangeSet_keys_nodup _, rangeSet_mem_keys _, ?_⟩
  · simp [NewZipMapFromBytes, h]
  · intro name f
    exact rangeSet_get? _ _ _

/-- C7. For every buffer that the reader rejects with `err`, `NewZipMapFromBytes` returns
the nil map and the error that wraps `err`; it returns no map with a nil error. -/
theorem NewZipMapFromBytes_rejected (NewReader : List UInt8 → Except Error Reader)
    (data : List UInt8) (err : Error) (h : NewReader data = .error err) :
    NewZipMapFromBytes NewReader data = (none, some (.Errorf "failed to create zip reader" err)) ∧
      (NewZipMapFromBytes NewReader data).2.bind Error.Unwrap = some err ∧
      ∀ m, NewZipMapFromBytes NewReader data ≠ (some m, none) := by
  simp [NewZipMapFromBytes, h, Error.Unwrap]

/-- C9. For every file that can be read, with content `data`, `NewZipMapFromFilename` on
the path and `NewZipMapFromBytes` on `data` return the same result: the same wrapped
reader error, or maps with the same keys and the same entries. -/
theorem NewZipMapFromFilename_eq_NewZipMapFromBytes
    (ReadFile : String → Except Error (List UInt8))
    (NewReader : List UInt8 → Except Error Reader) (filename : String) (data : List UInt8)
    (h : ReadFile filename = .ok data) :
    NewZipMapFromFilename ReadFile NewReader filename = NewZipMapFromBytes NewReader data := by
  simp only [NewZipMapFromFilename, NewZipMapFromBytes, h]

/-! ## Reading an entry -/

/-- C2. For every entry whose stream opens and delivers the bytes `C` up to a clean end,
`ReadZipFileContent` returns exactly `C` and a nil error. -/
theorem ReadZipFileContent_exact (f : File) (s : Streams) (stream : ReadStream)
    (C : List UInt8) (hopen : f.body = .ok stream) (hend : stream.err = Error.EOF)
    (hC : stream.bytes = C) :
    (ReadZipFileContent f s).1 = (C, none) := by
  simp [ReadZipFileContent, File.Open, hopen, ReadAll_eq, hend, hC]

/-- C8. For every entry whose stream fails to open, or opens and fails while it is read,
`ReadZipFileContent` returns that error, so a non-nil one: no bytes come with a nil
error. -/
theorem ReadZipFileContent_failure (f : File) (s : Streams)
    (hfail : (∃ err, f.body = .error err) ∨
      (∃ stream, f.body = .ok stream ∧ stream.err ≠ Error.EOF)) :
    (ReadZipFileContent f s).1.2 =
        some (match f.body with
          | .error err => err
          | .ok stream => stream.err) ∧
      ∀ data, (ReadZipFileContent f s).1 ≠ (data, none) := by
  rcases hfail with ⟨err, h⟩ | ⟨stream, h, hne⟩
  · simp [ReadZipFileContent, File.Open, h]
  · simp [ReadZipFileContent, File.Open, h, ReadAll_eq, hne]

/-- C10. On every path of `CopyFile` and of `ReadZipFileContent` the streams that are
open after the call are those open before it; when the entry's stream opened, the call
closed that stream, once, and closed no other; when the open failed, no stream was opened
or closed. -/
theorem read_stream_released (zipWriter : Writer) (f : File) (s : Streams) :
    (CopyFile zipWriter f s).2.2.live = s.live ∧
      (ReadZipFileContent f s).2.live = s.live ∧
      (CopyFile zipWriter f s).2.2.closes =
        s.closes ++ (match f.body with
          | .ok _ => [s.next]
          | .error _ => []) ∧
      (ReadZipFileContent f s).2.closes =
        s.closes ++ (match f.body with
          | .ok _ => [s.next]
          | .error _ => []) := by
  cases h : f.body with
  | error err => simp [CopyFile, ReadZipFileContent, File.Open, h]
  | ok stream => simp [CopyFile, ReadZipFileContent, File.Open, h, ReadCloser.Close]

/-! ## Writing entries -/

theorem finalize_open (w : Writer) (hopen : w.closed = false) (hgood : w.damaged = false) :
    finalize w = some (w.dir.map (fun h => ⟨h.Name, h.Method, h.written.length, h.written⟩)) := by
  simp [finalize, Writer.Close, reread, hopen, hgood]

theorem finalize_mk (dir : List header) (last : Option Nat) (compressors : List Nat)
    (received : List FileHeader) :
    finalize ⟨dir, last, false, compressors, false, received⟩ =
      some (dir.map (fun h => ⟨h.Name, h.Method, h.written.length, h.written⟩)) := by
  simp [finalize, Writer.Close, reread]

/-- A header created and a stream copied under it with success: the stream ended cleanly
and the archive gained one entry with the bytes of the stream. -/
theorem create_copy (w : Writer) (fh : FileHeader) (ow : IoWriter) (w1 : Writer)
    (stream : ReadStream) (hopen : w.closed = false) (hgood : w.damaged = false)
    (hc : w.CreateHeader fh = (.ok ow, w1)) (hcp : (Copy w1 ow stream).1.2 = none) :
    stream.err = Error.EOF ∧
      finalize (Copy w1 ow stream).2 =
        some (w.dir.map (fun h => ⟨h.Name, h.Method, h.written.length, h.written⟩) ++
          [⟨fh.Name, if HasSuffix fh.Name "/" then Store else fh.Method,
            stream.bytes.length, stream.bytes⟩]) := by
  obtain ⟨-, ⟨hd, rfl, rfl⟩ | ⟨hd, rfl, rfl⟩⟩ := CreateHeader_ok _ _ _ _ hc
  · unfold Copy at hcp ⊢
    obtain ⟨h1, h2, h3⟩ := copyBuffer_dirWriter stream _ 0 hcp
    rw [h3, h2]
    simp only [hopen, hgood, finalize_mk]
    exact ⟨h1, by simp [hd]⟩
  · unfold Copy at hcp ⊢
    rw [copyBuffer_fileWriter _ _ _ _ rfl] at hcp ⊢
    by_cases he : stream.err = Error.EOF
    · refine ⟨he, ?_⟩
      simp only [hopen, hgood, finalize_mk]
      simp [hd, writeAt_length_append]
    · simp [he] at hcp

/-- A header created and bytes written under it with success: the archive gained one
entry with these bytes. -/
theorem create_write (w : Writer) (fh : FileHeader) (ow : IoWriter) (w1 : Writer)
    (content : List UInt8) (hopen : w.closed = false) (hgood : w.damaged = false)
    (hc : w.CreateHeader fh = (.ok ow, w1)) (hwr : (w1.Write ow content).1.2 = none) :
    finalize (w1.Write ow content).2 =
      some (w.dir.map (fun h => ⟨h.Name, h.Method, h.written.length, h.written⟩) ++
        [⟨fh.Name, if HasSuffix fh.Name "/" then Store else fh.Method,
          content.length, content⟩]) := by
  obtain ⟨-, ⟨hd, rfl, rfl⟩ | ⟨hd, rfl, rfl⟩⟩ := CreateHeader_ok _ _ _ _ hc
  · unfold Writer.Write at hwr ⊢
    by_cases h0 : content.length = 0
    · have : content = [] := List.length_eq_zero.mp h0
      subst this
      simp only [List.length_nil, if_true, hopen, hgood, finalize_mk]
      simp [hd]
    · simp [h0] at hwr
  · unfold Writer.Write
    simp only [if_true, hopen, hgood, finalize_mk]
    simp [hd, writeAt_length_append]

/-- What a copy with a nil error leaves. For every entry and every open writer none of
whose headers was rejected: when `CopyFile` returns a nil error, the entry's stream opened
and delivered its content up to a clean end, and finalizing the writer and reading it back
gives the entries the writer held before, followed by one entry with the name of the
source, its content and the length of the content as size, and with the method of the
source unless the name ends in a slash, when the method is `Store`. -/
theorem CopyFile_roundtrip (zipWriter : Writer) (f : File) (s : Streams)
    (hopen : zipWriter.closed = false) (hgood : zipWriter.damaged = false)
    (hok : (CopyFile zipWriter f s).1 = none) :
    ∃ stream old, f.body = .ok stream ∧ stream.err = Error.EOF ∧
      finalize zipWriter = some old ∧
      finalize (CopyFile zipWriter f s).2.1 =
        some (old ++ [⟨f.Name, if HasSuffix f.Name "/" then Store else f.FileHeader.Method,
          stream.bytes.length, stream.bytes⟩]) := by
  unfold CopyFile at hok ⊢
  cases hb : f.body with
  | error err => simp [File.Open, hb] at hok
  | ok stream =>
    simp only [File.Open, hb] at hok ⊢
    generalize hfh : ({ FileHeader.zero with
      Name := f.Name, Method := f.FileHeader.Method } : FileHeader) = fh at hok ⊢
    have hname : fh.Name = f.Name := by rw [← hfh]
    have hmeth : fh.Method = f.FileHeader.Method := by rw [← hfh]
    rcases hc : zipWriter.CreateHeader fh with ⟨r, w1⟩
    rw [hc] at hok
    cases r with
    | error err => simp at hok
    | ok newFile =>
      simp only at hok ⊢
      rcases hcp : Copy w1 newFile stream with ⟨⟨n, e⟩, w2⟩
      rw [hcp] at hok
      cases e with
      | some e => simp at hok
      | none =>
        simp only
        have h3 := create_copy zipWriter fh newFile w1 stream hopen hgood hc (by rw [hcp])
        rw [hcp] at h3
        refine ⟨stream, _, rfl, h3.1, finalize_open _ hopen hgood, ?_⟩
        rw [h3.2, hname, hmeth]

/-- C3, the failing input. The directory entry of the `jar` tool is copied with a nil
error, and the archive read back holds one entry, whose method is `Store`: no entry has
the name, the method `Deflate` and the content of the source. -/
theorem CopyFile_directory_method_lost :
    (CopyFile NewWriter jarDirectory noStreams).1 = none ∧
      jarDirectory.body = .ok (.last [] .EOF) ∧
      finalize (CopyFile NewWriter jarDirectory noStreams).2.1 =
        some [⟨"META-INF/", Store, 0, []⟩] ∧
      ¬ ∃ entries, finalize (CopyFile NewWriter jarDirectory noStreams).2.1 = some entries ∧
          ∃ st ∈ entries, st.Name = jarDirectory.Name ∧
            st.Method = jarDirectory.FileHeader.Method ∧ st.content = [] := by
  have h : finalize (CopyFile NewWriter jarDirectory noStreams).2.1 =
      some [⟨"META-INF/", Store, 0, []⟩] := by decide
  refine ⟨by decide, rfl, h, ?_⟩
  rintro ⟨entries, he, st, hst, -, hm, -⟩
  rw [h] at he
  cases he
  simp at hst
  subst hst
  revert hm
  decide

/-- An instance: the entry `a.txt`, deflated and read in two chunks, is copied into a new writer and
read back with its name, its method and its content. -/
theorem CopyFile_roundtrip_witness :
    NewWriter.closed = false ∧ NewWriter.damaged = false ∧
      (CopyFile NewWriter aTxt noStreams).1 = none ∧
      ∃ stream old, aTxt.body = .ok stream ∧ stream.err = Error.EOF ∧
        finalize NewWriter = some old ∧
        finalize (CopyFile NewWriter aTxt noStreams).2.1 =
          some (old ++ [⟨aTxt.Name,
            if HasSuffix aTxt.Name "/" then Store else aTxt.FileHeader.Method,
            stream.bytes.length, stream.bytes⟩]) :=
  ⟨rfl, rfl, by decide, CopyFile_roundtrip NewWriter aTxt noStreams rfl rfl (by decide)⟩

/-- What `WriteFile` returns, case by case. -/
theorem WriteFile_eq (w : Writer) (name : String) (content : List UInt8) :
    (WriteFile w name content).1 =
      if 65535 < name.utf8ByteSize then some Error.errLongName
      else if HasSuffix name "/" = true ∧ content ≠ [] then
        some (Error.New "zip: write to directory")
      else none := by
  unfold WriteFile Writer.CreateHeader writeHeader
  by_cases hl : 65535 < name.utf8ByteSize
  · simp [hl, Writer.compressor, Store, FileHeader.zero]
  · by_cases hd : HasSuffix name "/" = true
    · by_cases hc : content = []
      · simp [hl, hd, hc, Writer.compressor, Store, FileHeader.zero, Time.IsZero, Writer.Write]
      · have h0 : content.length ≠ 0 := fun h => hc (List.length_eq_zero.mp h)
        simp [hl, hd, hc, h0, Writer.compressor, Store, FileHeader.zero, Time.IsZero,
          Writer.Write]
    · simp [hl, hd, Writer.compressor, Store, FileHeader.zero, Time.IsZero, Writer.Write]

/-- C6, counterexample. A directory name with a content: `WriteFile` on a new writer returns an error, and
the archive read back holds one entry, which is empty: no entry has the content `hi`. -/
theorem WriteFile_directory_content_rejected :
    (WriteFile NewWriter "d/" hi).1 = some (Error.New "zip: write to directory") ∧
      finalize (WriteFile NewWriter "d/" hi).2 = some [⟨"d/", Store, 0, []⟩] ∧
      ¬ ∃ entries, finalize (WriteFile NewWriter "d/" hi).2 = some entries ∧
          ∃ st ∈ entries, st.Name = "d/" ∧ st.Method = Store ∧
            st.UncompressedSize64 = hi.length ∧ st.content = hi := by
  have h : finalize (WriteFile NewWriter "d/" hi).2 = some [⟨"d/", Store, 0, []⟩] := by decide
  refine ⟨by decide, h, ?_⟩
  rintro ⟨entries, he, st, hst, -, -, -, hc⟩
  rw [h] at he
  cases he
  simp at hst
  subst hst
  revert hc
  decide

/-- C6, as it holds of the code. On a fresh open writer `WriteFile` returns a nil error exactly
when the name is at most 65535 bytes long and, if the name ends in a slash, the content is
empty; whenever it returns a nil error, finalizing the writer and reading it back gives
exactly one entry, with the given name, the method `Store`, the length of the content as
uncompressed size, and the content. -/
theorem WriteFile_fresh (w : Writer) (name : String) (content : List UInt8)
    (hfresh : w.dir = []) (hopen : w.closed = false) (hgood : w.damaged = false) :
    ((WriteFile w name content).1 = none ↔
        name.utf8ByteSize ≤ 65535 ∧ (HasSuffix name "/" = true → content = [])) ∧
      ((WriteFile w name content).1 = none →
        finalize (WriteFile w name content).2 =
          some [⟨name, Store, content.length, content⟩]) := by
  constructor
  · rw [WriteFile_eq]
    by_cases hl : 65535 < name.utf8ByteSize
    · simp [hl]
    · have hl2 : name.utf8ByteSize ≤ 65535 := by omega
      by_cases hd : HasSuffix name "/" = true
      · by_cases hc : content = []
        · simp [hl, hl2, hd, hc]
        · simp [hl, hd, hc]
      · simp [hl, hl2, hd]
  · intro hok
    unfold WriteFile at hok ⊢
    generalize hfh : ({ FileHeader.zero with
      Name := name, Method := Store,
      UncompressedSize64 := content.length % 2 ^ 64 } : FileHeader) = fh at hok ⊢
    have hname : fh.Name = name := by rw [← hfh]
    have hmeth : fh.Method = Store := by rw [← hfh]
    rcases hc : w.CreateHeader fh with ⟨r, w1⟩
    rw [hc] at hok
    cases r with
    | error err => simp at hok
    | ok newFile =>
      simp only at hok ⊢
      rcases hw : w1.Write newFile content with ⟨⟨n, e⟩, w2⟩
      rw [hw] at hok
      cases e with
      | some e => simp at hok
      | none =>
        simp only
        have h3 := create_write w fh newFile w1 content hopen hgood hc (by rw [hw])
        rw [hw] at h3
        rw [h3, hname, hmeth, hfresh]
        simp

/-- C6, instance. The example of the specification: `WriteFile(w, "a.txt", []byte("hi"))` on a new
writer returns nil and gives exactly one stored entry `a.txt` with content `hi`. -/
theorem WriteFile_fresh_witness :
    NewWriter.dir = [] ∧ NewWriter.closed = false ∧ NewWriter.damaged = false ∧
      (WriteFile NewWriter "a.txt" hi).1 = none ∧
      finalize (WriteFile NewWriter "a.txt" hi).2 = some [⟨"a.txt", Store, 2, hi⟩] :=
  ⟨rfl, rfl, rfl, by decide,
    (WriteFile_fresh NewWriter "a.txt" hi rfl rfl rfl).2 (by decide)⟩

/-! ## Instances -/

/-- C1, instance. The sample archive holds `a.txt` twice: the index has the two names, and `a.txt` is
mapped to the later entry. -/
theorem NewZipMapFromBytes_last_write_wins_witness :
    sampleReader [80, 75] = .ok ⟨[aTxt, truncated, aTxtAgain], ""⟩ ∧
      ∃ m : ZipMap, NewZipMapFromBytes sampleReader [80, 75] = (some m, none) ∧
        m.keys.Nodup ∧
        (∀ name, name ∈ m.keys ↔ ∃ f ∈ [aTxt, truncated, aTxtAgain], f.Name = name) ∧
        (∀ name f, m.get? name = some f ↔
          ∃ pre post, [aTxt, truncated, aTxtAgain] = pre ++ f :: post ∧ f.Name = name ∧
            ∀ g ∈ post, g.Name ≠ name) :=
  ⟨by decide, NewZipMapFromBytes_last_write_wins sampleReader [80, 75]
    ⟨[aTxt, truncated, aTxtAgain], ""⟩ (by decide)⟩

/-- C7, instance. The sample parser rejects the empty buffer, and so does `NewZipMapFromBytes`. -/
theorem NewZipMapFromBytes_rejected_witness :
    sampleReader [] = .error .ErrFormat ∧
      NewZipMapFromBytes sampleReader [] =
        (none, some (.Errorf "failed to create zip reader" .ErrFormat)) ∧
      (NewZipMapFromBytes sampleReader []).2.bind Error.Unwrap = some .ErrFormat ∧
      ∀ m, NewZipMapFromBytes sampleReader [] ≠ (some m, none) :=
  ⟨by decide, NewZipMapFromBytes_rejected sampleReader [] .ErrFormat (by decide)⟩

/-- C9, instance. The sample file `x.zip` is indexed alike from its path and from its bytes. -/
theorem NewZipMapFromFilename_eq_NewZipMapFromBytes_witness :
    sampleFS "x.zip" = .ok [80, 75] ∧
      NewZipMapFromFilename sampleFS sampleReader "x.zip" =
        NewZipMapFromBytes sampleReader [80, 75] :=
  ⟨by decide, NewZipMapFromFilename_eq_NewZipMapFromBytes sampleFS sampleReader "x.zip"
    [80, 75] (by decide)⟩

/-- C2, instance. The entry `a.txt`, read in two chunks, gives `hi`. -/
theorem ReadZipFileContent_exact_witness :
    aTxt.body = .ok (.more [104] (.more [105] (.last [] .EOF))) ∧
      (ReadStream.more [104] (.more [105] (.last [] .EOF))).err = Error.EOF ∧
      (ReadStream.more [104] (.more [105] (.last [] .EOF))).bytes = hi ∧
      (ReadZipFileContent aTxt noStreams).1 = (hi, none) :=
  ⟨rfl, rfl, rfl, ReadZipFileContent_exact aTxt noStreams
    (.more [104] (.more [105] (.last [] .EOF))) hi rfl rfl rfl⟩

/-- C8, instance. The truncated entry is read with the error of its stream. -/
theorem ReadZipFileContent_failure_witness :
    ((∃ err, truncated.body = .error err) ∨
        (∃ stream, truncated.body = .ok stream ∧ stream.err ≠ Error.EOF)) ∧
      (ReadZipFileContent truncated noStreams).1.2 =
        some (match truncated.body with
          | .error err => err
          | .ok stream => stream.err) ∧
      ∀ data, (ReadZipFileContent truncated noStreams).1 ≠ (data, none) :=
  ⟨Or.inr ⟨_, rfl, by decide⟩,
    ReadZipFileContent_failure truncated noStreams (Or.inr ⟨_, rfl, by decide⟩)⟩

/-! ## Lemmas on memory -/

theorem modify_arrays (m : Heap) (p : Nat) (g : FileHeaderOf Slice → FileHeaderOf Slice) :
    (m.modify p g).arrays = m.arrays := rfl

theorem CreateHeaderAt_writer (upd : FileHeaderOf Slice → FileHeaderOf Slice) (w : Writer)
    (p : Nat) (m : Heap) :
    (w.CreateHeaderAt upd p m).1 = (w.CreateHeader (m.load p)).1 ∧
      (w.CreateHeaderAt upd p m).2.1 = (w.CreateHeader (m.load p)).2 :=
  ⟨rfl, rfl⟩

/-- C4, the failing input. The directory entry of the `jar` tool, in a memory of its own,
is rewritten with the empty content with a nil error, whatever the library's update of
the header; the archive read back holds one entry, whose method is `Store`: no entry has
the name and the method `Deflate` of the source. -/
theorem RewriteFileIntoZipWriter_directory_method_lost
    (upd : FileHeaderOf Slice → FileHeaderOf Slice) :
    (Heap.of jarDirectory.FileHeader).load 0 = jarDirectory.FileHeader ∧
      (RewriteFileIntoZipWriter upd NewWriter 0 []
        (Heap.of jarDirectory.FileHeader)).1 = none ∧
      finalize (RewriteFileIntoZipWriter upd NewWriter 0 []
        (Heap.of jarDirectory.FileHeader)).2.1 = some [⟨"META-INF/", Store, 0, []⟩] ∧
      ¬ ∃ entries, finalize (RewriteFileIntoZipWriter upd NewWriter 0 []
            (Heap.of jarDirectory.FileHeader)).2.1 = some entries ∧
          ∃ st ∈ entries, st.Name = jarDirectory.Name ∧
            st.Method = jarDirectory.FileHeader.Method ∧ st.content = [] ∧
            st.UncompressedSize64 = 0 := by
  have h : finalize (RewriteFileIntoZipWriter upd NewWriter 0 []
      (Heap.of jarDirectory.FileHeader)).2.1 = some [⟨"META-INF/", Store, 0, []⟩] := rfl
  refine ⟨by decide, rfl, h, ?_⟩
  rintro ⟨entries, he, st, hst, -, hm, -, -⟩
  rw [h] at he
  cases he
  simp at hst
  subst hst
  revert hm
  decide

end goziputils
